import Mathlib

/-!
# mapup_goserver: the two sorting handlers of `server.go`

A shallow embedding of `handleSequential` and `handleConcurrent`.

* Go slices of integers are modelled by the sequence of their elements
  (`List Int`); `make([][]int, n)` is the sequence of `n` empty slices. A nil
  slice and an empty slice are the same sequence here.
* `json.NewDecoder(r.Body).Decode(&req)` belongs to the Go standard library;
  its outcome is an input of the handlers (`Except String SortRequest`, the
  error carrying the text of `err`).
* `http.ResponseWriter` is modelled by the status line and the list of chunks
  written to the body.
* The monotonic clock behind `time.Now` / `time.Since` is a counter of
  nanoseconds (`Nat`) that is part of the state: a handler reads it where the
  source calls `time.Now` and `time.Since`, and between two statements it
  advances by a natural number of nanoseconds.
* `handleConcurrent` spawns goroutines; its body is embedded as a step
  function on an explicit state, one action per thread statement, and a
  schedule is a list of actions. Statements of different threads interleave
  in any order; the only blocking statements are `wg.Wait()` (until the
  counter is zero) and the two ends of the unbuffered channel (until both are
  ready).
-/

namespace GoServer

/-! ## Data model -/

/-- The request body, `type SortRequest struct`. -/
structure SortRequest where
  ToSort : List (List Int)
deriving DecidableEq, Repr

/-- The response body, `type SortResponse struct`. -/
structure SortResponse where
  SortedArrays : List (List Int)
  TimeNs : Int
deriving DecidableEq, Repr

/-- What a handler writes to the body: the text of `fmt.Fprintf`, or the value
handed to `json.NewEncoder(w).Encode`. -/
inductive Chunk where
  | text (s : String)
  | json (resp : SortResponse)
deriving DecidableEq, Repr

/-- The observable part of an `http.ResponseWriter`: the status code once the
header has been written, and the body chunks in the order written. -/
structure ResponseWriter where
  status : Option Nat
  body : List Chunk
deriving DecidableEq, Repr

/-- The writer a handler receives from `net/http`: nothing written yet. -/
def ResponseWriter.fresh : ResponseWriter := { status := none, body := [] }

/-- `http.StatusBadRequest`. -/
def StatusBadRequest : Nat := 400

/-- `http.StatusOK`, the status an unset header defaults to on the first write. -/
def StatusOK : Nat := 200

/-- `w.WriteHeader(code)`: fixes the status unless one was already sent. -/
def ResponseWriter.WriteHeader (w : ResponseWriter) (code : Nat) : ResponseWriter :=
  match w.status with
  | some _ => w
  | none => { w with status := some code }

/-- `w.Write(...)`: sends the header with `StatusOK` if none was sent, then
appends to the body. -/
def ResponseWriter.Write (w : ResponseWriter) (c : Chunk) : ResponseWriter :=
  { status := some (w.status.getD StatusOK), body := w.body ++ [c] }

/-- `fmt.Fprintf(w, "Error: %v", err)`, with `err` the text of the error. -/
def Fprintf (w : ResponseWriter) (err : String) : ResponseWriter :=
  w.Write (Chunk.text ("Error: " ++ err))

/-- `json.NewEncoder(w).Encode(resp)`. -/
def Encode (w : ResponseWriter) (resp : SortResponse) : ResponseWriter :=
  w.Write (Chunk.json resp)

/-! ## The `sort` and `time` packages as used by the handlers -/

/-- `sort.IntSlice(arr)`. In package `sort`, `IntSlice` is the named type
`type IntSlice []int`, so this expression is a conversion of `arr` to that
type: it yields the same slice and calls no sorting method. -/
def IntSlice (arr : List Int) : List Int := arr

/-- The largest `time.Duration` (an `int64` count of nanoseconds). -/
def maxDuration : Int := 2 ^ 63 - 1

/-- The smallest `time.Duration`. -/
def minDuration : Int := -(2 ^ 63)

/-- `time.Since(startTime).Nanoseconds()` when the monotonic clock reads `now`:
the difference of the two readings, held to the range of `time.Duration` as
`Time.Sub` documents. -/
def Since (startTime now : Nat) : Int :=
  let d : Int := (now : Int) - (startTime : Int)
  if d > maxDuration then maxDuration
  else if d < minDuration then minDuration
  else d

/-! ## `handleSequential` -/

/-- The loop `for i, arr := range req.ToSort { sortedArrays[i] = sort.IntSlice(arr) }`
run on the output slice `sortedArrays`. -/
def sequentialLoop (ToSort : List (List Int)) (sortedArrays : List (List Int)) :
    List (List Int) :=
  ToSort.enum.foldl (fun out p => out.set p.1 (IntSlice p.2)) sortedArrays

/-- `handleSequential`, given the outcome of decoding the body, the reading
`clock` of the monotonic clock when `time.Now()` executes, and the number
`elapsed` of nanoseconds by which the clock advances while the loop runs, up
to the moment `time.Since` reads it. -/
def handleSequential (w : ResponseWriter) (decoded : Except String SortRequest)
    (clock elapsed : Nat) : ResponseWriter :=
  match decoded with
  | .error err => Fprintf (w.WriteHeader StatusBadRequest) err
  | .ok req =>
    let startTime := clock
    let sortedArrays := List.replicate req.ToSort.length ([] : List Int)
    let sortedArrays := sequentialLoop req.ToSort sortedArrays
    let clock := clock + elapsed
    let elapsedTime := Since startTime clock
    let resp : SortResponse := { SortedArrays := sortedArrays, TimeNs := elapsedTime }
    Encode w resp

/-! ## `handleConcurrent` -/

/-- Where a sorting goroutine `go func(i int, arr []int) {...}(i, arr)` stands:
before its write to `sortedArrays[i]`, before `wg.Done()`, or returned. -/
inductive UnitPc where
  | write
  | done
  | exited
deriving DecidableEq, Repr

/-- A launched sorting goroutine with its two arguments. -/
structure Goroutine where
  i : Nat
  arr : List Int
  pc : UnitPc
deriving DecidableEq, Repr

/-- Where the waiter goroutine stands: not launched, at `wg.Wait()`, at
`ch <- sortedArrays`, or returned. -/
inductive WaiterPc where
  | absent
  | wait
  | send
  | exited
deriving DecidableEq, Repr

/-- The next statement of the handler itself (decoding already succeeded).
`loop k` is the head of the `range` loop at index `k`, where `wg.Add(1)` is
next if `k` is in range; `spawn i arr` is the `go` statement of that
iteration. -/
inductive HandlerPc where
  | start
  | loop (k : Nat)
  | spawn (i : Nat) (arr : List Int)
  | launchWaiter
  | recv
  | elapsed
  | respond
  | exited
deriving DecidableEq, Repr

/-- The state of one invocation of `handleConcurrent`. `sortedArrays` is the
slice shared by the handler and all goroutines; `wg` is the counter of the
`sync.WaitGroup`; `panicked` records a run-time panic (index out of range,
negative WaitGroup counter). -/
structure ConcState where
  ToSort : List (List Int)
  clock : Nat
  startTime : Nat
  wg : Int
  sortedArrays : List (List Int)
  units : List Goroutine
  waiter : WaiterPc
  pc : HandlerPc
  elapsedTime : Int
  w : ResponseWriter
  panicked : Bool
deriving DecidableEq, Repr

/-- One scheduling decision: the clock advances by `d` nanoseconds, or the
handler, the `j`-th launched sorting goroutine, or the waiter executes its next
statement. -/
inductive Action where
  | tick (d : Nat)
  | handler
  | unit (j : Nat)
  | waiter
deriving DecidableEq, Repr

/-- The state of `handleConcurrent` once the body has been decoded: on a decode
error the 400 response is written and the handler has returned; otherwise the
handler stands before `startTime := time.Now()`. -/
def handleConcurrent (w : ResponseWriter) (decoded : Except String SortRequest)
    (clock : Nat) : ConcState :=
  match decoded with
  | .error err =>
    { ToSort := [], clock := clock, startTime := 0, wg := 0, sortedArrays := [],
      units := [], waiter := .absent, pc := .exited, elapsedTime := 0,
      w := Fprintf (w.WriteHeader StatusBadRequest) err, panicked := false }
  | .ok req =>
    { ToSort := req.ToSort, clock := clock, startTime := 0, wg := 0, sortedArrays := [],
      units := [], waiter := .absent, pc := .start, elapsedTime := 0,
      w := w, panicked := false }

/-- The handler executes its next statement, if it is not blocked. -/
def stepHandler (s : ConcState) : Option ConcState :=
  match s.pc with
  | .start =>
    -- startTime := time.Now(); wg := sync.WaitGroup{};
    -- sortedArrays := make([][]int, len(req.ToSort)); ch := make(chan [][]int)
    some { s with startTime := s.clock, wg := 0,
                  sortedArrays := List.replicate s.ToSort.length [], pc := .loop 0 }
  | .loop k =>
    match s.ToSort[k]? with
    | some arr => some { s with wg := s.wg + 1, pc := .spawn k arr }  -- wg.Add(1)
    | none => some { s with pc := .launchWaiter }                     -- loop exit
  | .spawn i arr =>
    -- go func(i int, arr []int) {...}(i, arr)
    some { s with units := s.units ++ [{ i := i, arr := arr, pc := .write }],
                  pc := .loop (i + 1) }
  | .launchWaiter =>
    -- go func() { wg.Wait(); ch <- sortedArrays }()
    some { s with waiter := .wait, pc := .recv }
  | .recv =>
    -- sortedArrays = <-ch : the channel is unbuffered, so the receive completes
    -- only together with the waiter's send; the value received is the slice
    -- header the waiter sent, which refers to the shared slice
    match s.waiter with
    | .send => some { s with sortedArrays := s.sortedArrays, waiter := .exited, pc := .elapsed }
    | _ => none
  | .elapsed =>
    some { s with elapsedTime := Since s.startTime s.clock, pc := .respond }
  | .respond =>
    some { s with w := Encode s.w { SortedArrays := s.sortedArrays, TimeNs := s.elapsedTime },
                  pc := .exited }
  | .exited => none

/-- The `j`-th launched sorting goroutine executes its next statement. -/
def stepUnit (s : ConcState) (j : Nat) : Option ConcState :=
  match s.units[j]? with
  | none => none
  | some g =>
    match g.pc with
    | .write =>
      -- sortedArrays[i] = sort.IntSlice(arr)
      if g.i < s.sortedArrays.length then
        some { s with sortedArrays := s.sortedArrays.set g.i (IntSlice g.arr),
                      units := s.units.set j { g with pc := .done } }
      else
        some { s with panicked := true }
    | .done =>
      -- wg.Done()
      if s.wg - 1 < 0 then
        some { s with panicked := true }
      else
        some { s with wg := s.wg - 1, units := s.units.set j { g with pc := .exited } }
    | .exited => none

/-- The waiter goroutine executes its next statement, if it is not blocked.
`wg.Wait()` returns once the counter is zero; the send completes only through
the handler's receive (see `stepHandler`). -/
def stepWaiter (s : ConcState) : Option ConcState :=
  match s.waiter with
  | .wait => if s.wg = 0 then some { s with waiter := .send } else none
  | _ => none

/-- One step of the invocation under a scheduling decision; `none` when the
chosen thread cannot move. A panic stops the whole program. -/
def step (s : ConcState) (a : Action) : Option ConcState :=
  if s.panicked then none
  else
    match a with
    | .tick d => some { s with clock := s.clock + d }
    | .handler => stepHandler s
    | .unit j => stepUnit s j
    | .waiter => stepWaiter s

/-- Runs a schedule; `none` when some decision of it picks a thread that cannot
move. -/
def run (s : ConcState) : List Action → Option ConcState
  | [] => some s
  | a :: sched => (step s a).bind (fun t => run t sched)

/-- A slice is non-decreasing, the order `sort.Ints` establishes. -/
def NonDecreasing (arr : List Int) : Prop := arr.Pairwise (fun a b => a ≤ b)

instance (arr : List Int) : Decidable (NonDecreasing arr) := by
  unfold NonDecreasing; infer_instance



/-! ## Invariants of the concurrent invocation -/

/-- Number of launched sorting goroutines that have not returned yet. -/
def pending (units : List Goroutine) : Nat :=
  units.countP (fun g => decide (g.pc ≠ UnitPc.exited))

/-- The `wg.Add(1)` of the current iteration whose goroutine is not launched yet. -/
def spawning : HandlerPc → Nat
  | .spawn _ _ => 1
  | _ => 0

/-- How the launched goroutines and the waiter relate to the handler's position. -/
def PcOk (ts : List (List Int)) (units : List Goroutine) (waiter : WaiterPc) :
    HandlerPc → Prop
  | .start => units = [] ∧ waiter = .absent
  | .loop k => units.length = k ∧ waiter = .absent
  | .spawn k arr => units.length = k ∧ ts[k]? = some arr ∧ waiter = .absent
  | .launchWaiter => units.length = ts.length ∧ waiter = .absent
  | .recv => units.length = ts.length ∧
      (waiter = .wait ∨ (waiter = .send ∧ pending units = 0))
  | .elapsed => units.length = ts.length ∧ waiter = .exited ∧ pending units = 0
  | .respond => units.length = ts.length ∧ waiter = .exited ∧ pending units = 0
  | .exited => units.length = ts.length ∧ waiter = .exited ∧ pending units = 0

/-- What the writer holds at each position of the handler that started from
writer `w0`. -/
def writerAt (w0 : ResponseWriter) (s : ConcState) : ResponseWriter :=
  match s.pc with
  | .exited => Encode w0 { SortedArrays := s.sortedArrays, TimeNs := s.elapsedTime }
  | _ => w0

/-- The invariant of an invocation of `handleConcurrent` on the decoded
request `ts`, with writer `w0`. -/
structure Inv (ts : List (List Int)) (w0 : ResponseWriter) (s : ConcState) : Prop where
  toSort : s.ToSort = ts
  noPanic : s.panicked = false
  units_ok : ∀ (j : Nat) (g : Goroutine), s.units[j]? = some g →
    g.i = j ∧ ts[j]? = some g.arr ∧
      (g.pc ≠ UnitPc.write → s.sortedArrays[j]? = some (IntSlice g.arr))
  len_ok : s.pc ≠ HandlerPc.start → s.sortedArrays.length = ts.length
  wg_ok : s.wg = ((pending s.units + spawning s.pc : Nat) : Int)
  pc_ok : PcOk ts s.units s.waiter s.pc
  w_ok : s.w = writerAt w0 s
  time_ok : s.pc ≠ HandlerPc.start → s.startTime ≤ s.clock
  elapsed_ok : s.pc = HandlerPc.respond ∨ s.pc = HandlerPc.exited →
    ∃ c, s.startTime ≤ c ∧ c ≤ s.clock ∧ s.elapsedTime = Since s.startTime c

/-- Statements a sorting goroutine still has to execute. -/
def unitFuel : UnitPc → Nat
  | .write => 2
  | .done => 1
  | .exited => 0

/-- Statements the waiter still has to execute on its own (`wg.Wait()`). -/
def waiterFuel : WaiterPc → Nat
  | .absent => 1
  | .wait => 1
  | .send => 0
  | .exited => 0

/-- Statements the handler still has to execute, together with those of the
goroutines it has not launched yet, for a request of `n` arrays. -/
def handlerFuel (n : Nat) : HandlerPc → Nat
  | .start => 4 * n + 6
  | .loop k => 4 * (n - k) + 5
  | .spawn k _ => 4 * (n - k) + 4
  | .launchWaiter => 4
  | .recv => 3
  | .elapsed => 2
  | .respond => 1
  | .exited => 0

/-- Total number of statements left to execute in the invocation. -/
def fuel (s : ConcState) : Nat :=
  handlerFuel s.ToSort.length s.pc + (s.units.map (fun g => unitFuel g.pc)).sum
    + waiterFuel s.waiter

/-- The scheduling decision lets a thread of the program run (it is not a
bare advance of the clock). -/
def Action.isThread : Action → Bool
  | .tick _ => false
  | _ => true

/-- Number of thread statements executed by a schedule. -/
def threadSteps (sched : List Action) : Nat := sched.countP Action.isThread

/-- The handler has completed its receive `sortedArrays = <-ch`. -/
def HandlerPc.received : HandlerPc → Bool
  | .elapsed => true
  | .respond => true
  | .exited => true
  | _ => false

/-- The request of the running example, `{"to_sort": [[3,1,2],[5,-1,0]]}`. -/
def exampleRequest : SortRequest := { ToSort := [[3, 1, 2], [5, -1, 0]] }

/-- A complete schedule for `exampleRequest`: the second goroutine writes before
the first one, the clock advances by 5 ns in between. -/
def exampleSchedule : List Action :=
  [.handler, .handler, .handler, .handler, .unit 0, .handler, .unit 1, .handler, .handler,
   .unit 1, .tick 5, .unit 0, .waiter, .handler, .handler, .handler]

/-- The state `exampleSchedule` leads to from a fresh writer and clock reading 7. -/
def exampleFinal : ConcState :=
  { ToSort := [[3, 1, 2], [5, -1, 0]], clock := 12, startTime := 7, wg := 0,
    sortedArrays := [[3, 1, 2], [5, -1, 0]],
    units := [{ i := 0, arr := [3, 1, 2], pc := .exited }, { i := 1, arr := [5, -1, 0], pc := .exited }],
    waiter := .exited, pc := .exited, elapsedTime := 5,
    w := { status := some 200, body := [.json { SortedArrays := [[3, 1, 2], [5, -1, 0]], TimeNs := 5 }] },
    panicked := false }

/-- A prefix of `exampleSchedule` after which the first goroutine is about to write. -/
def exampleMidSchedule : List Action :=
  [.handler, .handler, .handler, .handler, .handler, .unit 1]

/-- The state `exampleMidSchedule` leads to. -/
def exampleMid : ConcState :=
  { ToSort := [[3, 1, 2], [5, -1, 0]], clock := 7, startTime := 7, wg := 2,
    sortedArrays := [[], [5, -1, 0]],
    units := [{ i := 0, arr := [3, 1, 2], pc := .write }, { i := 1, arr := [5, -1, 0], pc := .done }],
    waiter := .absent, pc := .loop 2, elapsedTime := 0,
    w := ResponseWriter.fresh, panicked := false }

/-- The state `exampleSchedule` without its last two handler steps leads to: the
handler stands at `time.Since`. -/
def exampleElapsed : ConcState :=
  { exampleFinal with pc := .elapsed, elapsedTime := 0, w := ResponseWriter.fresh }

/-- The state of an invocation on `to_sort = []` that has returned, started at clock
reading 7. -/
def emptyFinal : ConcState :=
  { ToSort := [], clock := 7, startTime := 7, wg := 0, sortedArrays := [], units := [],
    waiter := .exited, pc := .exited, elapsedTime := 0,
    w := { status := some 200, body := [.json { SortedArrays := [], TimeNs := 0 }] },
    panicked := false }

/-- The state after the first goroutine's write in `exampleMid`. -/
def exampleMidNext : ConcState :=
  { exampleMid with
    sortedArrays := [[3, 1, 2], [5, -1, 0]],
    units := [{ i := 0, arr := [3, 1, 2], pc := .done }, { i := 1, arr := [5, -1, 0], pc := .done }] }

/-- The handler stands at `startTime := time.Now()`. -/
def HandlerPc.atNow : HandlerPc → Bool
  | .start => true
  | _ => false

/-- The handler stands at `elapsedTime := time.Since(startTime).Nanoseconds()`. -/
def HandlerPc.atSince : HandlerPc → Bool
  | .elapsed => true
  | _ => false

/-- The state in which the handler executes, for the first time along the schedule
`sched` run from `s`, a statement at a position satisfying `p`; `none` when the
schedule cannot be run that far or the handler executes no such statement. -/
def stateAt (p : HandlerPc → Bool) : ConcState → List Action → Option ConcState
  | _, [] => none
  | s, a :: sched =>
    match step s a with
    | none => none
    | some t => if a = Action.handler ∧ p s.pc = true then some s else stateAt p t sched

theorem take_succ_set (out : List (List Int)) (k : Nat) (a : List Int) (h : k < out.length) :
    (out.set k a).take (k + 1) = out.take k ++ [a] := by
  have h1 : (out.set k a).take k = out.take k := by
    rw [List.set_take, List.set_eq_of_length_le (by simp)]
  rw [List.take_succ, h1]
  simp [h]

theorem foldl_set_enumFrom (l : List (List Int)) : ∀ (k : Nat) (out : List (List Int)),
    out.length = k + l.length →
    (l.enumFrom k).foldl (fun out p => out.set p.1 (IntSlice p.2)) out = out.take k ++ l := by
  induction l with
  | nil =>
    intro k out h
    simp at h
    simp [List.take_of_length_le (Nat.le_of_eq h)]
  | cons a t ih =>
    intro k out h
    simp only [List.enumFrom_cons, List.foldl_cons, List.length_cons] at h ⊢
    rw [ih (k + 1) (out.set k (IntSlice a)) (by simp; omega)]
    rw [take_succ_set out k (IntSlice a) (by omega)]
    simp [IntSlice]

theorem sequentialLoop_eq (ts : List (List Int)) :
    sequentialLoop ts (List.replicate ts.length []) = ts := by
  unfold sequentialLoop List.enum
  rw [foldl_set_enumFrom ts 0 _ (by simp)]
  simp


theorem countP_set_add {α : Type} (p : α → Bool) : ∀ (l : List α) (j : Nat) (g h : α),
    l[j]? = some g →
    (l.set j h).countP p + (if p g then 1 else 0) = l.countP p + (if p h then 1 else 0) := by
  intro l
  induction l with
  | nil => intro j g h hj; simp at hj
  | cons a t ih =>
    intro j g h hj
    cases j with
    | zero =>
      simp at hj
      subst hj
      simp [List.countP_cons]
      omega
    | succ j =>
      simp at hj
      have := ih j g h hj
      simp [List.countP_cons]
      omega

theorem pending_set_same (units : List Goroutine) (j : Nat) (g h : Goroutine)
    (hj : units[j]? = some g) (hg : g.pc ≠ UnitPc.exited) (hh : h.pc ≠ UnitPc.exited) :
    pending (units.set j h) = pending units := by
  have := countP_set_add (fun g => decide (g.pc ≠ UnitPc.exited)) units j g h hj
  simp [hg, hh] at this
  simpa [pending] using this

theorem pending_set_exited (units : List Goroutine) (j : Nat) (g h : Goroutine)
    (hj : units[j]? = some g) (hg : g.pc ≠ UnitPc.exited) (hh : h.pc = UnitPc.exited) :
    pending (units.set j h) + 1 = pending units := by
  have := countP_set_add (fun g => decide (g.pc ≠ UnitPc.exited)) units j g h hj
  simp [hg, hh] at this
  simpa [pending] using this

theorem pending_zero_exited (units : List Goroutine) (h : pending units = 0)
    (j : Nat) (g : Goroutine) (hj : units[j]? = some g) : g.pc = UnitPc.exited := by
  unfold pending at h
  rw [List.countP_eq_zero] at h
  have := h g (List.getElem?_mem hj)
  simpa using this

theorem pending_pos_of_mem (units : List Goroutine) (j : Nat) (g : Goroutine)
    (hj : units[j]? = some g) (hg : g.pc ≠ UnitPc.exited) : 0 < pending units := by
  unfold pending
  rw [List.countP_pos_iff]
  exact ⟨g, List.getElem?_mem hj, by simpa using hg⟩

theorem exists_pending (units : List Goroutine) (h : 0 < pending units) :
    ∃ (j : Nat) (g : Goroutine), units[j]? = some g ∧ g.pc ≠ UnitPc.exited := by
  unfold pending at h
  rw [List.countP_pos_iff] at h
  obtain ⟨g, hmem, hg⟩ := h
  obtain ⟨j, hj⟩ := List.mem_iff_getElem?.mp hmem
  exact ⟨j, g, hj, by simpa using hg⟩

theorem pending_append_one (units : List Goroutine) (g : Goroutine)
    (hg : g.pc ≠ UnitPc.exited) : pending (units ++ [g]) = pending units + 1 := by
  simp [pending, List.countP_append, hg]


theorem inv_init (w0 : ResponseWriter) (req : SortRequest) (clock : Nat) :
    Inv req.ToSort w0 (handleConcurrent w0 (.ok req) clock) := by
  constructor <;> simp [handleConcurrent, pending, spawning, PcOk, writerAt]

theorem inv_tick {ts : List (List Int)} {w0 : ResponseWriter} {s : ConcState}
    (h : Inv ts w0 s) (d : Nat) : Inv ts w0 { s with clock := s.clock + d } := by
  obtain ⟨h1, h2, h3, h4, h5, h6, h7, h8, h9⟩ := h
  refine ⟨h1, h2, h3, h4, h5, h6, h7, ?_, ?_⟩
  · intro hp
    have := h8 hp
    simp only
    omega
  · intro hp
    obtain ⟨c, hc1, hc2, hc3⟩ := h9 hp
    exact ⟨c, hc1, by simp only; omega, hc3⟩

theorem units_length_le {ts : List (List Int)} {w0 : ResponseWriter} {s : ConcState}
    (h : Inv ts w0 s) : s.units.length ≤ ts.length := by
  by_contra hlt
  push_neg at hlt
  have hts : ts.length < s.units.length := hlt
  have hg : s.units[ts.length]? = some (s.units[ts.length]) := List.getElem?_eq_getElem hts
  have := (h.units_ok _ _ hg).2.1
  have hnone : ts[ts.length]? = none := List.getElem?_eq_none (Nat.le_refl _)
  rw [hnone] at this
  exact Option.noConfusion this

theorem inv_handler {ts : List (List Int)} {w0 : ResponseWriter} {s t : ConcState}
    (h : Inv ts w0 s) (hstep : stepHandler s = some t) : Inv ts w0 t := by
  have hle := units_length_le h
  obtain ⟨h1, h2, h3, h4, h5, h6, h7, h8, h9⟩ := h
  obtain ⟨ToSort, clock, startTime, wg, sortedArrays, units, waiter, pc, elapsedTime, w,
    panicked⟩ := s
  simp only at h1 h2 h3 h4 h5 h6 h7 h8 h9 hle
  subst h1
  cases pc with
  | start =>
    simp only [stepHandler, Option.some.injEq] at hstep
    subst hstep
    simp only [PcOk] at h6
    obtain ⟨hu, hw⟩ := h6
    subst hu
    refine ⟨rfl, h2, ?_, ?_, ?_, ?_, ?_, ?_, ?_⟩ <;>
      simp_all [pending, spawning, PcOk, writerAt]
  | loop k =>
    simp only [PcOk] at h6
    obtain ⟨hu, hw⟩ := h6
    simp only [stepHandler] at hstep
    cases hk : ToSort[k]? with
    | some arr =>
      simp only [hk, Option.some.injEq] at hstep
      subst hstep
      refine ⟨rfl, h2, h3, ?_, ?_, ?_, ?_, ?_, ?_⟩ <;>
        simp_all [pending, spawning, PcOk, writerAt]
    | none =>
      simp only [hk, Option.some.injEq] at hstep
      subst hstep
      have hk2 : ToSort.length ≤ k := by
        rw [List.getElem?_eq_none_iff] at hk
        exact hk
      refine ⟨rfl, h2, h3, ?_, ?_, ?_, ?_, ?_, ?_⟩ <;>
        simp_all [pending, spawning, PcOk, writerAt]
      omega
  | spawn i arr =>
    simp only [PcOk] at h6
    obtain ⟨hu, harr, hw⟩ := h6
    simp only [stepHandler, Option.some.injEq] at hstep
    subst hstep
    refine ⟨rfl, h2, ?_, ?_, ?_, ?_, ?_, ?_, ?_⟩
    · intro j g hj
      simp only at hj
      by_cases hlt : j < units.length
      · rw [List.getElem?_append_left hlt] at hj
        exact h3 j g hj
      · have hge : units.length ≤ j := Nat.le_of_not_lt hlt
        rw [List.getElem?_append_right hge] at hj
        have hj0 : j - units.length = 0 := by
          by_contra hne
          have : ([({ i := i, arr := arr, pc := UnitPc.write } : Goroutine)])[j - units.length]? = none := by
            apply List.getElem?_eq_none
            simp
            omega
          rw [this] at hj
          exact Option.noConfusion hj
        rw [hj0] at hj
        simp at hj
        subst hj
        have : j = i := by omega
        subst this
        simp [harr]
    · intro _; exact h4 (by simp)
    · simp only [spawning] at h5 ⊢
      rw [pending_append_one _ _ (by simp)]
      simpa using h5
    · simp [PcOk, hu, hw]
    · simpa [writerAt] using h7
    · intro _; exact h8 (by simp)
    · intro hp; simp at hp
  | launchWaiter =>
    simp only [stepHandler, Option.some.injEq] at hstep
    subst hstep
    refine ⟨rfl, h2, h3, ?_, ?_, ?_, ?_, ?_, ?_⟩ <;>
      simp_all [pending, spawning, PcOk, writerAt]
  | recv =>
    simp only [stepHandler] at hstep
    cases waiter <;> simp at hstep
    subst hstep
    refine ⟨rfl, h2, h3, ?_, ?_, ?_, ?_, ?_, ?_⟩ <;>
      simp_all [pending, spawning, PcOk, writerAt]
  | elapsed =>
    simp only [stepHandler, Option.some.injEq] at hstep
    subst hstep
    refine ⟨rfl, h2, h3, ?_, ?_, ?_, ?_, ?_, ?_⟩
    · intro _; exact h4 (by simp)
    · simpa [spawning] using h5
    · simpa [PcOk] using h6
    · simpa [writerAt] using h7
    · intro _; exact h8 (by simp)
    · intro _
      exact ⟨clock, h8 (by simp), Nat.le_refl _, rfl⟩
  | respond =>
    simp only [stepHandler, Option.some.injEq] at hstep
    subst hstep
    refine ⟨rfl, h2, h3, ?_, ?_, ?_, ?_, ?_, ?_⟩
    · intro _; exact h4 (by simp)
    · simpa [spawning] using h5
    · simpa [PcOk] using h6
    · simp [writerAt, h7]
    · intro _; exact h8 (by simp)
    · intro _
      exact h9 (Or.inl rfl)
  | exited =>
    simp [stepHandler] at hstep


theorem pc_ne_start_of_unit {ts : List (List Int)} {w0 : ResponseWriter} {s : ConcState}
    (h : Inv ts w0 s) {j : Nat} {g : Goroutine} (hj : s.units[j]? = some g) :
    s.pc ≠ HandlerPc.start := by
  intro hpc
  have h6 := h.pc_ok
  rw [hpc] at h6
  simp only [PcOk] at h6
  rw [h6.1] at hj
  simp at hj

theorem pcOk_pending {ts : List (List Int)} {units units2 : List Goroutine}
    {waiter : WaiterPc} {pc : HandlerPc} (h : PcOk ts units waiter pc)
    (hlen : units2.length = units.length) (hp : pending units2 ≤ pending units) :
    PcOk ts units2 waiter pc := by
  cases pc <;> simp only [PcOk] at h ⊢
  · obtain ⟨hu, hw⟩ := h
    subst hu
    simp at hlen
    exact ⟨hlen, hw⟩
  · exact ⟨by omega, h.2⟩
  · exact ⟨by omega, h.2⟩
  · exact ⟨by omega, h.2⟩
  · refine ⟨by omega, ?_⟩
    rcases h.2 with hw | ⟨hw, hz⟩
    · exact Or.inl hw
    · exact Or.inr ⟨hw, by omega⟩
  · exact ⟨by omega, h.2.1, by omega⟩
  · exact ⟨by omega, h.2.1, by omega⟩
  · exact ⟨by omega, h.2.1, by omega⟩

theorem unit_live_not_exited {ts : List (List Int)} {w0 : ResponseWriter} {s : ConcState}
    (h : Inv ts w0 s) {j : Nat} {g : Goroutine} (hj : s.units[j]? = some g)
    (hg : g.pc ≠ UnitPc.exited) :
    s.pc ≠ HandlerPc.elapsed ∧ s.pc ≠ HandlerPc.respond ∧ s.pc ≠ HandlerPc.exited := by
  have h6 := h.pc_ok
  have hpos := pending_pos_of_mem s.units j g hj hg
  refine ⟨?_, ?_, ?_⟩ <;> intro hpc <;> rw [hpc] at h6 <;> simp only [PcOk] at h6 <;> omega

theorem inv_unit {ts : List (List Int)} {w0 : ResponseWriter} {s t : ConcState} {j : Nat}
    (h : Inv ts w0 s) (hstep : stepUnit s j = some t) : Inv ts w0 t := by
  unfold stepUnit at hstep
  cases hj : s.units[j]? with
  | none => simp [hj] at hstep
  | some g =>
    simp only [hj] at hstep
    have hne := pc_ne_start_of_unit h hj
    obtain ⟨hgi, hga, hgw⟩ := h.units_ok j g hj
    have hlen := h.len_ok hne
    have hjlt : j < ts.length := (List.getElem?_eq_some_iff.mp hga).1
    have hjl : j < s.units.length := (List.getElem?_eq_some_iff.mp hj).1
    have hwg := h.wg_ok
    have h6 := h.pc_ok
    have h7 := h.w_ok
    have h8 := h.time_ok
    have h9 := h.elapsed_ok
    have h3 := h.units_ok
    have h1 := h.toSort
    have h2 := h.noPanic
    have hlive := unit_live_not_exited h hj
    clear h
    obtain ⟨ToSort, clock, startTime, wg, sortedArrays, units, waiter, pc, elapsedTime, w,
      panicked⟩ := s
    obtain ⟨gi, garr, gpc⟩ := g
    simp only at hj hne hgi hga hgw hlen hjl hwg h6 h7 h8 h9 h3 h1 h2 hlive hstep
    subst hgi
    cases gpc with
    | write =>
      have hlive2 := hlive (by simp)
      have hin : gi < sortedArrays.length := by omega
      simp only [hin, if_true, Option.some.injEq] at hstep
      subst hstep
      have hp : pending (units.set gi { i := gi, arr := garr, pc := UnitPc.done }) = pending units :=
        pending_set_same _ _ _ _ hj (by simp) (by simp)
      refine ⟨h1, h2, ?_, ?_, ?_, ?_, ?_, h8, h9⟩
      · intro k g2 hk
        simp only at hk ⊢
        by_cases hkj : gi = k
        · subst hkj
          rw [List.getElem?_set_self hjl] at hk
          simp only [Option.some.injEq] at hk
          subst hk
          refine ⟨rfl, hga, fun _ => ?_⟩
          rw [List.getElem?_set_self hin]
        · rw [List.getElem?_set_ne hkj] at hk
          obtain ⟨a1, a2, a3⟩ := h3 k g2 hk
          refine ⟨a1, a2, fun hw => ?_⟩
          rw [List.getElem?_set_ne hkj]
          exact a3 hw
      · intro _
        simp only [List.length_set]
        exact hlen
      · simp only [hp]
        exact hwg
      · exact pcOk_pending h6 (by simp) (by simp only; omega)
      · obtain ⟨_, _, he⟩ := hlive2
        revert h7 he
        cases pc <;> simp [writerAt]
    | done =>
      have hlive2 := hlive (by simp)
      have hpos := pending_pos_of_mem units gi _ hj (by simp)
      have hnn : ¬ (wg - 1 < 0) := by omega
      simp only [hnn, if_false, Option.some.injEq] at hstep
      subst hstep
      have hp : pending (units.set gi { i := gi, arr := garr, pc := UnitPc.exited }) + 1
          = pending units :=
        pending_set_exited _ _ _ _ hj (by simp) (by simp)
      refine ⟨h1, h2, ?_, fun _ => hlen, ?_, ?_, ?_, h8, h9⟩
      · intro k g2 hk
        simp only at hk ⊢
        by_cases hkj : gi = k
        · subst hkj
          rw [List.getElem?_set_self hjl] at hk
          simp only [Option.some.injEq] at hk
          subst hk
          exact ⟨rfl, hga, fun _ => hgw (by simp)⟩
        · rw [List.getElem?_set_ne hkj] at hk
          exact h3 k g2 hk
      · simp only
        omega
      · exact pcOk_pending h6 (by simp) (by simp only; omega)
      · obtain ⟨_, _, he⟩ := hlive2
        revert h7 he
        cases pc <;> simp [writerAt]
    | exited => simp at hstep

theorem inv_waiter {ts : List (List Int)} {w0 : ResponseWriter} {s t : ConcState}
    (h : Inv ts w0 s) (hstep : stepWaiter s = some t) : Inv ts w0 t := by
  obtain ⟨h1, h2, h3, h4, h5, h6, h7, h8, h9⟩ := h
  obtain ⟨ToSort, clock, startTime, wg, sortedArrays, units, waiter, pc, elapsedTime, w,
    panicked⟩ := s
  simp only at h1 h2 h3 h4 h5 h6 h7 h8 h9
  unfold stepWaiter at hstep
  cases waiter <;> simp only at hstep <;> try exact Option.noConfusion hstep
  by_cases hz : wg = 0
  · simp only [hz, if_true, Option.some.injEq] at hstep
    subst hstep
    subst hz
    have hpz : pending units = 0 := by omega
    refine ⟨h1, h2, h3, h4, h5, ?_, ?_, h8, h9⟩
    · revert h6
      cases pc <;> simp [PcOk, hpz]
    · revert h7 h6
      cases pc <;> simp [writerAt, PcOk]
  · simp [hz] at hstep

theorem inv_step {ts : List (List Int)} {w0 : ResponseWriter} {s t : ConcState} {a : Action}
    (h : Inv ts w0 s) (hstep : step s a = some t) : Inv ts w0 t := by
  unfold step at hstep
  rw [if_neg (by simp [h.noPanic])] at hstep
  cases a with
  | tick d =>
    simp only [Option.some.injEq] at hstep
    subst hstep
    exact inv_tick h d
  | handler => exact inv_handler h hstep
  | unit j => exact inv_unit h hstep
  | waiter => exact inv_waiter h hstep

theorem inv_run {ts : List (List Int)} {w0 : ResponseWriter} (sched : List Action) :
    ∀ {s t : ConcState}, Inv ts w0 s → run s sched = some t → Inv ts w0 t := by
  induction sched with
  | nil =>
    intro s t h hr
    simp only [run, Option.some.injEq] at hr
    subst hr
    exact h
  | cons a sched ih =>
    intro s t h hr
    simp only [run] at hr
    cases hs : step s a with
    | none => simp [hs] at hr
    | some u =>
      simp only [hs, Option.some_bind] at hr
      exact ih (inv_step h hs) hr


theorem sum_map_set_add {α : Type} (f : α → Nat) : ∀ (l : List α) (j : Nat) (g h : α),
    l[j]? = some g →
    ((l.set j h).map f).sum + f g = (l.map f).sum + f h := by
  intro l
  induction l with
  | nil => intro j g h hj; simp at hj
  | cons a t ih =>
    intro j g h hj
    cases j with
    | zero =>
      simp at hj
      subst hj
      simp only [List.set_cons_zero, List.map_cons, List.sum_cons]
      omega
    | succ j =>
      simp at hj
      have := ih j g h hj
      simp only [List.set_cons_succ, List.map_cons, List.sum_cons]
      omega

theorem sortedArrays_eq_of_done {ts : List (List Int)} {w0 : ResponseWriter} {s : ConcState}
    (h : Inv ts w0 s) (hne : s.pc ≠ HandlerPc.start) (hlen : s.units.length = ts.length)
    (hp : pending s.units = 0) : s.sortedArrays = ts := by
  have hl := h.len_ok hne
  apply List.ext_getElem? 
  intro j
  by_cases hj : j < ts.length
  · have hu : s.units[j]? = some (s.units[j]) := List.getElem?_eq_getElem (by omega)
    obtain ⟨_, a2, a3⟩ := h.units_ok j _ hu
    have hex := pending_zero_exited s.units hp j _ hu
    rw [a3 (by rw [hex]; simp), a2]
    rfl
  · rw [List.getElem?_eq_none (by omega), List.getElem?_eq_none (by omega)]

theorem fuel_handler {ts : List (List Int)} {w0 : ResponseWriter} {s t : ConcState}
    (h : Inv ts w0 s) (hstep : stepHandler s = some t) : fuel t + 1 = fuel s := by
  obtain ⟨h1, h2, h3, h4, h5, h6, h7, h8, h9⟩ := h
  obtain ⟨ToSort, clock, startTime, wg, sortedArrays, units, waiter, pc, elapsedTime, w,
    panicked⟩ := s
  simp only at h1 h2 h3 h4 h5 h6 h7 h8 h9
  subst h1
  cases pc with
  | start =>
    simp only [stepHandler, Option.some.injEq] at hstep
    subst hstep
    simp [fuel, handlerFuel]
    omega
  | loop k =>
    simp only [stepHandler] at hstep
    cases hk : ToSort[k]? with
    | some arr =>
      simp only [hk, Option.some.injEq] at hstep
      subst hstep
      simp [fuel, handlerFuel]
      omega
    | none =>
      simp only [hk, Option.some.injEq] at hstep
      subst hstep
      have hk2 : ToSort.length ≤ k := by
        rw [List.getElem?_eq_none_iff] at hk
        exact hk
      simp [fuel, handlerFuel]
      omega
  | spawn i arr =>
    simp only [PcOk] at h6
    have hi : i < ToSort.length := (List.getElem?_eq_some_iff.mp h6.2.1).1
    simp only [stepHandler, Option.some.injEq] at hstep
    subst hstep
    simp [fuel, handlerFuel, unitFuel]
    omega
  | launchWaiter =>
    simp only [PcOk] at h6
    simp only [stepHandler, Option.some.injEq] at hstep
    subst hstep
    simp [fuel, handlerFuel, waiterFuel, h6.2]
    omega
  | recv =>
    simp only [stepHandler] at hstep
    cases waiter <;> simp at hstep
    subst hstep
    simp [fuel, handlerFuel, waiterFuel]
    omega
  | elapsed =>
    simp only [stepHandler, Option.some.injEq] at hstep
    subst hstep
    simp [fuel, handlerFuel]
    omega
  | respond =>
    simp only [stepHandler, Option.some.injEq] at hstep
    subst hstep
    simp [fuel, handlerFuel]
    omega
  | exited =>
    simp [stepHandler] at hstep


theorem unitFuel_set (units : List Goroutine) (j : Nat) (g h : Goroutine)
    (hj : units[j]? = some g) :
    ((units.set j h).map (fun g => unitFuel g.pc)).sum + unitFuel g.pc
      = (units.map (fun g => unitFuel g.pc)).sum + unitFuel h.pc :=
  sum_map_set_add (fun g => unitFuel g.pc) units j g h hj

theorem fuel_unit {ts : List (List Int)} {w0 : ResponseWriter} {s t : ConcState} {j : Nat}
    (h : Inv ts w0 s) (hstep : stepUnit s j = some t) : fuel t + 1 = fuel s := by
  have hinv := inv_unit h hstep
  have hnp := hinv.noPanic
  unfold stepUnit at hstep
  cases hj : s.units[j]? with
  | none => simp [hj] at hstep
  | some g =>
    simp only [hj] at hstep
    cases hpc : g.pc with
    | write =>
      simp only [hpc] at hstep
      by_cases hin : g.i < s.sortedArrays.length
      · simp only [hin, if_true, Option.some.injEq] at hstep
        subst hstep
        have := unitFuel_set s.units j g { g with pc := UnitPc.done } hj
        have e1 : unitFuel g.pc = 2 := by rw [hpc]; rfl
        have e2 : unitFuel ({ g with pc := UnitPc.done } : Goroutine).pc = 1 := rfl
        rw [e1, e2] at this
        simp only [fuel]
        omega
      · simp only [hin, if_false, Option.some.injEq] at hstep
        subst hstep
        simp at hnp
    | done =>
      simp only [hpc] at hstep
      by_cases hin : s.wg - 1 < 0
      · simp only [hin, if_true, Option.some.injEq] at hstep
        subst hstep
        simp at hnp
      · simp only [hin, if_false, Option.some.injEq] at hstep
        subst hstep
        have := unitFuel_set s.units j g { g with pc := UnitPc.exited } hj
        have e1 : unitFuel g.pc = 1 := by rw [hpc]; rfl
        have e2 : unitFuel ({ g with pc := UnitPc.exited } : Goroutine).pc = 0 := rfl
        rw [e1, e2] at this
        simp only [fuel]
        omega
    | exited => simp [hpc] at hstep

theorem fuel_waiter {s t : ConcState} (hstep : stepWaiter s = some t) :
    fuel t + 1 = fuel s := by
  unfold stepWaiter at hstep
  cases hw : s.waiter <;> simp only [hw] at hstep <;> try exact Option.noConfusion hstep
  by_cases hz : s.wg = 0
  · simp only [hz, if_true, Option.some.injEq] at hstep
    subst hstep
    simp [fuel, waiterFuel, hw]
  · simp [hz] at hstep

theorem fuel_step {ts : List (List Int)} {w0 : ResponseWriter} {s t : ConcState} {a : Action}
    (h : Inv ts w0 s) (hstep : step s a = some t) :
    fuel t + (if a.isThread then 1 else 0) = fuel s := by
  unfold step at hstep
  rw [if_neg (by simp [h.noPanic])] at hstep
  cases a with
  | tick d =>
    simp only [Option.some.injEq] at hstep
    subst hstep
    simp [fuel, Action.isThread]
  | handler => simpa [Action.isThread] using fuel_handler h hstep
  | unit j => simpa [Action.isThread] using fuel_unit h hstep
  | waiter => simpa [Action.isThread] using fuel_waiter hstep

theorem fuel_run {ts : List (List Int)} {w0 : ResponseWriter} (sched : List Action) :
    ∀ {s t : ConcState}, Inv ts w0 s → run s sched = some t →
      fuel t + threadSteps sched = fuel s := by
  induction sched with
  | nil =>
    intro s t h hr
    simp only [run, Option.some.injEq] at hr
    subst hr
    simp [threadSteps]
  | cons a sched ih =>
    intro s t h hr
    simp only [run] at hr
    cases hs : step s a with
    | none => simp [hs] at hr
    | some u =>
      simp only [hs, Option.some_bind] at hr
      have h1 := ih (inv_step h hs) hr
      have h2 := fuel_step h hs
      simp only [threadSteps, List.countP_cons] at h1 ⊢
      omega

theorem progress {ts : List (List Int)} {w0 : ResponseWriter} {s : ConcState}
    (h : Inv ts w0 s) (hpc : s.pc ≠ HandlerPc.exited) :
    ∃ a : Action, a.isThread = true ∧ (step s a).isSome = true := by
  have hnp := h.noPanic
  have h6 := h.pc_ok
  have h5 := h.wg_ok
  by_cases hrecv : s.pc = HandlerPc.recv
  · rw [hrecv] at h6
    simp only [PcOk] at h6
    rcases h6.2 with hw | ⟨hw, _⟩
    · by_cases hz : s.wg = 0
      · refine ⟨Action.waiter, rfl, ?_⟩
        simp [step, hnp, stepWaiter, hw, hz]
      · have hpos : 0 < pending s.units := by
          rw [hrecv] at h5
          simp only [spawning] at h5
          omega
        obtain ⟨j, g, hj, hg⟩ := exists_pending s.units hpos
        refine ⟨Action.unit j, rfl, ?_⟩
        simp only [step, hnp, stepUnit, hj]
        cases hq : g.pc
        · by_cases hin : g.i < s.sortedArrays.length <;> simp [hin]
        · by_cases hin : s.wg - 1 < 0 <;> simp [hin]
        · exact absurd hq hg
    · refine ⟨Action.handler, rfl, ?_⟩
      simp [step, hnp, stepHandler, hrecv, hw]
  · refine ⟨Action.handler, rfl, ?_⟩
    simp only [step, hnp, stepHandler]
    revert hpc hrecv
    cases hq : s.pc <;> simp
    split <;> simp

theorem exists_run_to_exit {ts : List (List Int)} {w0 : ResponseWriter} :
    ∀ (n : Nat) (s : ConcState), fuel s ≤ n → Inv ts w0 s →
      ∃ (sched : List Action) (t : ConcState), run s sched = some t ∧ t.pc = HandlerPc.exited := by
  intro n
  induction n with
  | zero =>
    intro s hf h
    by_cases hpc : s.pc = HandlerPc.exited
    · exact ⟨[], s, rfl, hpc⟩
    · obtain ⟨a, ha, hs⟩ := progress h hpc
      obtain ⟨u, hu⟩ := Option.isSome_iff_exists.mp hs
      have := fuel_step h hu
      simp [ha] at this
      omega
  | succ n ih =>
    intro s hf h
    by_cases hpc : s.pc = HandlerPc.exited
    · exact ⟨[], s, rfl, hpc⟩
    · obtain ⟨a, ha, hs⟩ := progress h hpc
      obtain ⟨u, hu⟩ := Option.isSome_iff_exists.mp hs
      have hfu := fuel_step h hu
      simp [ha] at hfu
      obtain ⟨sched, t, hr, ht⟩ := ih u (by omega) (inv_step h hu)
      exact ⟨a :: sched, t, by simp [run, hu, hr], ht⟩

theorem Since_nonneg {startTime now : Nat} (h : startTime ≤ now) : 0 ≤ Since startTime now := by
  unfold Since maxDuration minDuration
  simp only
  split
  · norm_num
  · split
    · omega
    · omega

theorem units_index {ts : List (List Int)} {w0 : ResponseWriter} {s : ConcState}
    (h : Inv ts w0 s) : s.units.map Goroutine.i = List.range s.units.length := by
  apply List.ext_getElem?
  intro j
  by_cases hj : j < s.units.length
  · have hu : s.units[j]? = some (s.units[j]) := List.getElem?_eq_getElem hj
    have := (h.units_ok j _ hu).1
    simp [List.getElem?_range hj, hj, this]
  · rw [List.getElem?_eq_none (by simp; omega), List.getElem?_eq_none (by simp; omega)]

theorem exit_writer {ts : List (List Int)} {w0 : ResponseWriter} {s : ConcState}
    (h : Inv ts w0 s) (hpc : s.pc = HandlerPc.exited) :
    s.w = Encode w0 { SortedArrays := ts, TimeNs := s.elapsedTime } := by
  have h6 := h.pc_ok
  rw [hpc] at h6
  simp only [PcOk] at h6
  have hs := sortedArrays_eq_of_done h (by rw [hpc]; simp) h6.1 h6.2.2
  have h7 := h.w_ok
  simp only [writerAt, hpc, hs] at h7
  exact h7

theorem run_error (w : ResponseWriter) (err : String) (sched : List Action) :
    ∀ (clock : Nat) (s : ConcState),
      run (handleConcurrent w (.error err) clock) sched = some s →
      s = handleConcurrent w (.error err) s.clock ∧ threadSteps sched = 0 := by
  induction sched with
  | nil =>
    intro clock s hr
    simp only [run, Option.some.injEq] at hr
    subst hr
    exact ⟨rfl, rfl⟩
  | cons a sched ih =>
    intro clock s hr
    simp only [run] at hr
    cases a with
    | tick d =>
      have hs : step (handleConcurrent w (.error err) clock) (.tick d)
          = some (handleConcurrent w (.error err) (clock + d)) := rfl
      rw [hs] at hr
      simp only [Option.some_bind] at hr
      obtain ⟨h1, h2⟩ := ih (clock + d) s hr
      exact ⟨h1, by simpa [threadSteps, Action.isThread] using h2⟩
    | handler =>
      have hs : step (handleConcurrent w (.error err) clock) .handler = none := rfl
      rw [hs] at hr
      simp at hr
    | unit j =>
      have hs : step (handleConcurrent w (.error err) clock) (.unit j) = none := rfl
      rw [hs] at hr
      simp at hr
    | waiter =>
      have hs : step (handleConcurrent w (.error err) clock) .waiter = none := rfl
      rw [hs] at hr
      simp at hr

theorem handleSequential_ok (w : ResponseWriter) (req : SortRequest) (seqClock elapsed : Nat) :
    handleSequential w (.ok req) seqClock elapsed
      = Encode w { SortedArrays := req.ToSort,
                   TimeNs := Since seqClock (seqClock + elapsed) } := by
  simp only [handleSequential, sequentialLoop_eq]

theorem reach_inv {w : ResponseWriter} {req : SortRequest} {clock : Nat}
    {sched : List Action} {s : ConcState}
    (hrun : run (handleConcurrent w (.ok req) clock) sched = some s) : Inv req.ToSort w s :=
  inv_run sched (inv_init w req clock) hrun

theorem exists_exit (w : ResponseWriter) (req : SortRequest) (clock : Nat) :
    ∃ (sched : List Action) (s : ConcState),
      run (handleConcurrent w (.ok req) clock) sched = some s ∧ s.pc = HandlerPc.exited :=
  exists_run_to_exit _ _ (Nat.le_refl _) (inv_init w req clock)

/-! ## The claims -/

/-- Claim C1 (code defect). On `{"to_sort": [[3,1,2],[5,-1,0]]}` both handlers answer with
`sorted_arrays = [[3,1,2],[5,-1,0]]`: the arrays come back in their input order, the
first one is not non-decreasing, and the answer differs from `[[1,2,3],[-1,0,5]]`. -/
theorem handlers_answer_unsorted_on_example :
    handleSequential .fresh (.ok exampleRequest) 7 5
        = { status := some 200,
            body := [.json { SortedArrays := [[3, 1, 2], [5, -1, 0]], TimeNs := 5 }] } ∧
      (run (handleConcurrent .fresh (.ok exampleRequest) 7) exampleSchedule).map (fun s => s.w)
        = some { status := some 200,
                 body := [.json { SortedArrays := [[3, 1, 2], [5, -1, 0]], TimeNs := 5 }] } ∧
      ¬ NonDecreasing [3, 1, 2] ∧
      ([[3, 1, 2], [5, -1, 0]] : List (List Int)) ≠ [[1, 2, 3], [-1, 0, 5]] := by
  refine ⟨by decide, by decide, by decide, by decide⟩

/-- Claim C2. On a decoded request the sequential handler writes one JSON response whose
`sorted_arrays` has the length of `to_sort` and is, index by index, a permutation of
`to_sort` (same length, same multiset, duplicates kept). -/
theorem handleSequential_length_and_perm (w : ResponseWriter) (req : SortRequest)
    (seqClock elapsed : Nat) :
    ∃ resp : SortResponse,
      handleSequential w (.ok req) seqClock elapsed = Encode w resp ∧
      resp.SortedArrays.length = req.ToSort.length ∧
      List.Forall₂ List.Perm resp.SortedArrays req.ToSort := by
  refine ⟨_, handleSequential_ok w req seqClock elapsed, rfl, ?_⟩
  simp only
  exact List.forall₂_same.mpr (fun _ _ => List.Perm.refl _)

/-- Claim C3. Whatever the schedule of the goroutines, once `handleConcurrent` has
returned on a decoded request its response carries the same `sorted_arrays` as the
response of `handleSequential` on that request (the two `time_ns` are left free); and
some schedule does make it return. -/
theorem handleConcurrent_sorted_arrays_eq_sequential (w : ResponseWriter) (req : SortRequest)
    (clock seqClock elapsed : Nat) (sched : List Action) (s : ConcState)
    (hrun : run (handleConcurrent w (.ok req) clock) sched = some s)
    (hexit : s.pc = HandlerPc.exited) :
    (∃ (arrays : List (List Int)) (t1 t2 : Int),
      s.w = Encode w { SortedArrays := arrays, TimeNs := t1 } ∧
      handleSequential w (.ok req) seqClock elapsed
        = Encode w { SortedArrays := arrays, TimeNs := t2 }) ∧
    ∃ (sched2 : List Action) (s2 : ConcState),
      run (handleConcurrent w (.ok req) clock) sched2 = some s2 ∧ s2.pc = HandlerPc.exited := by
  exact ⟨⟨req.ToSort, s.elapsedTime, Since seqClock (seqClock + elapsed),
    exit_writer (reach_inv hrun) hexit, handleSequential_ok w req seqClock elapsed⟩,
    exists_exit w req clock⟩

theorem handleConcurrent_sorted_arrays_eq_sequential_witness :
    run (handleConcurrent .fresh (.ok exampleRequest) 7) exampleSchedule = some exampleFinal ∧
    exampleFinal.pc = HandlerPc.exited ∧
    ((∃ (arrays : List (List Int)) (t1 t2 : Int),
      exampleFinal.w = Encode .fresh { SortedArrays := arrays, TimeNs := t1 } ∧
      handleSequential .fresh (.ok exampleRequest) 0 3
        = Encode .fresh { SortedArrays := arrays, TimeNs := t2 }) ∧
    ∃ (sched2 : List Action) (s2 : ConcState),
      run (handleConcurrent .fresh (.ok exampleRequest) 7) sched2 = some s2 ∧
        s2.pc = HandlerPc.exited) :=
  ⟨by decide, by decide,
    handleConcurrent_sorted_arrays_eq_sequential .fresh exampleRequest 7 0 3 exampleSchedule
      exampleFinal (by decide) (by decide)⟩


/-- Claim C4. With a fresh writer, each handler answers with status 400 exactly when
decoding the body failed. In that case the body is `Error: ` followed by the
diagnostic, nothing else is written, and in `handleConcurrent` no goroutine is
launched and no statement runs after the return. When decoding succeeded the status
is 200 in `handleSequential`, and in `handleConcurrent` the writer is untouched until
the JSON response is written with status 200. -/
theorem bad_request_iff_decode_fails (decoded : Except String SortRequest)
    (seqClock elapsed clock : Nat) (sched : List Action) (s : ConcState)
    (hrun : run (handleConcurrent .fresh decoded clock) sched = some s) :
    ((handleSequential .fresh decoded seqClock elapsed).status = some StatusBadRequest
        ↔ ∃ err, decoded = .error err) ∧
    (s.w.status = some StatusBadRequest ↔ ∃ err, decoded = .error err) ∧
    match decoded with
    | .error err =>
      handleSequential .fresh decoded seqClock elapsed
          = { status := some StatusBadRequest, body := [.text ("Error: " ++ err)] } ∧
        s.w = { status := some StatusBadRequest, body := [.text ("Error: " ++ err)] } ∧
        s.pc = HandlerPc.exited ∧ s.units = [] ∧ s.sortedArrays = [] ∧ threadSteps sched = 0
    | .ok _ =>
      (∃ resp, handleSequential .fresh decoded seqClock elapsed
          = { status := some StatusOK, body := [.json resp] }) ∧
        (s.w = ResponseWriter.fresh ∨
          ∃ resp, s.w = { status := some StatusOK, body := [.json resp] }) := by
  cases decoded with
  | error err =>
    obtain ⟨hs, hsteps⟩ := run_error .fresh err sched clock s hrun
    have hw : s.w = { status := some StatusBadRequest, body := [.text ("Error: " ++ err)] } := by
      rw [hs]; rfl
    refine ⟨?_, ?_, rfl, hw, ?_, ?_, ?_, hsteps⟩
    · constructor
      · intro _; exact ⟨err, rfl⟩
      · intro _; rfl
    · constructor
      · intro _; exact ⟨err, rfl⟩
      · intro _; rw [hw]
    · rw [hs]; rfl
    · rw [hs]; rfl
    · rw [hs]; rfl
  | ok req =>
    have hseq := handleSequential_ok .fresh req seqClock elapsed
    have hinv := reach_inv hrun
    have hw : s.w = ResponseWriter.fresh ∨
        ∃ resp, s.w = { status := some StatusOK, body := [.json resp] } := by
      have h7 := hinv.w_ok
      unfold writerAt at h7
      split at h7
      · exact Or.inr ⟨_, h7⟩
      · exact Or.inl h7
    refine ⟨?_, ?_, ⟨_, hseq⟩, hw⟩
    · constructor
      · intro h
        rw [hseq] at h
        simp [Encode, ResponseWriter.Write, ResponseWriter.fresh, StatusOK,
          StatusBadRequest] at h
      · rintro ⟨err, herr⟩
        exact Except.noConfusion herr
    · constructor
      · intro h
        rcases hw with hw | ⟨resp, hw⟩
        · rw [hw] at h
          exact absurd h (by decide)
        · rw [hw] at h
          simp [StatusOK, StatusBadRequest] at h
      · rintro ⟨err, herr⟩
        exact Except.noConfusion herr

theorem bad_request_iff_decode_fails_witness :
    run (handleConcurrent .fresh (.error "unexpected EOF") 7) [.tick 3]
        = some (handleConcurrent .fresh (.error "unexpected EOF") 10) ∧
      handleSequential .fresh (.error "unexpected EOF") 0 0
        = { status := some StatusBadRequest, body := [.text ("Error: " ++ "unexpected EOF")] } :=
  ⟨rfl, (bad_request_iff_decode_fails (.error "unexpected EOF") 0 0 7 [.tick 3]
      (handleConcurrent .fresh (.error "unexpected EOF") 10) rfl).2.2.1⟩

/-- Claim C5. For `to_sort = []` and a fresh writer, `handleSequential` answers with
status 200 and `sorted_arrays = []`; `handleConcurrent` returns under the schedule
handler, handler, handler, waiter, handler, handler, handler, and whenever it has
returned its answer is status 200 with `sorted_arrays = []`. -/
theorem empty_request_gives_empty_response (seqClock elapsed clock : Nat)
    (sched : List Action) (s : ConcState)
    (hrun : run (handleConcurrent .fresh (.ok { ToSort := [] }) clock) sched = some s)
    (hexit : s.pc = HandlerPc.exited) :
    handleSequential .fresh (.ok { ToSort := [] }) seqClock elapsed
        = { status := some StatusOK,
            body := [.json { SortedArrays := [],
                             TimeNs := Since seqClock (seqClock + elapsed) }] } ∧
      s.w = { status := some StatusOK,
              body := [.json { SortedArrays := [], TimeNs := s.elapsedTime }] } ∧
      (run (handleConcurrent .fresh (.ok { ToSort := [] }) clock)
          [.handler, .handler, .handler, .waiter, .handler, .handler, .handler]).map
            (fun t => (t.pc, t.w))
        = some (HandlerPc.exited,
            { status := some StatusOK, body := [.json { SortedArrays := [], TimeNs := 0 }] }) := by
  refine ⟨rfl, ?_, ?_⟩
  · rw [exit_writer (reach_inv hrun) hexit]
    rfl
  · simp [run, step, handleConcurrent, stepHandler, stepWaiter, Encode, ResponseWriter.Write,
      ResponseWriter.fresh, Since, maxDuration, minDuration]


theorem empty_request_gives_empty_response_witness :
    run (handleConcurrent .fresh (.ok { ToSort := [] }) 7)
        [.handler, .handler, .handler, .waiter, .handler, .handler, .handler] = some emptyFinal ∧
      emptyFinal.pc = HandlerPc.exited ∧
      emptyFinal.w = { status := some StatusOK,
                       body := [.json { SortedArrays := [], TimeNs := emptyFinal.elapsedTime }] } :=
  ⟨by decide, by decide,
    (empty_request_gives_empty_response 0 0 7
      [.handler, .handler, .handler, .waiter, .handler, .handler, .handler] emptyFinal
      (by decide) (by decide)).2.1⟩

theorem Since_of_le {startTime now : Nat} (h : startTime ≤ now) :
    Since startTime now = min ((now : Int) - (startTime : Int)) maxDuration := by
  unfold Since maxDuration minDuration
  simp only
  split
  · rw [min_eq_right (by omega)]
  · rw [min_eq_left (by omega)]
    split
    · omega
    · rfl

theorem stepUnit_frame {s t : ConcState} {j : Nat} (h : stepUnit s j = some t) :
    t.pc = s.pc ∧ t.startTime = s.startTime ∧ t.elapsedTime = s.elapsedTime := by
  unfold stepUnit at h
  split at h
  · exact Option.noConfusion h
  · split at h
    · split at h <;> (simp only [Option.some.injEq] at h; subst h; exact ⟨rfl, rfl, rfl⟩)
    · split at h <;> (simp only [Option.some.injEq] at h; subst h; exact ⟨rfl, rfl, rfl⟩)
    · exact Option.noConfusion h

theorem stepWaiter_frame {s t : ConcState} (h : stepWaiter s = some t) :
    t.pc = s.pc ∧ t.startTime = s.startTime ∧ t.elapsedTime = s.elapsedTime := by
  unfold stepWaiter at h
  split at h
  · split at h
    · simp only [Option.some.injEq] at h; subst h; exact ⟨rfl, rfl, rfl⟩
    · exact Option.noConfusion h
  · exact Option.noConfusion h

/-- A step that is not the handler's leaves the handler's position and its two time
variables as they are. -/
theorem step_frame {s t : ConcState} {a : Action} (h : step s a = some t)
    (ha : a ≠ Action.handler) :
    t.pc = s.pc ∧ t.startTime = s.startTime ∧ t.elapsedTime = s.elapsedTime := by
  unfold step at h
  split at h
  · exact Option.noConfusion h
  · cases a with
    | tick d => simp only [Option.some.injEq] at h; subst h; exact ⟨rfl, rfl, rfl⟩
    | handler => exact absurd rfl ha
    | unit j => exact stepUnit_frame h
    | waiter => exact stepWaiter_frame h

theorem stepHandler_after_since {s u : ConcState} (h : stepHandler s = some u)
    (hpc : s.pc = HandlerPc.respond ∨ s.pc = HandlerPc.exited) :
    u.pc = HandlerPc.exited ∧ u.elapsedTime = s.elapsedTime := by
  obtain ⟨ToSort, clock, startTime, wg, sortedArrays, units, waiter, pc, elapsedTime, w,
    panicked⟩ := s
  simp only at hpc
  rcases hpc with hpc | hpc
  · subst hpc
    simp only [stepHandler, Option.some.injEq] at h
    subst h
    exact ⟨rfl, rfl⟩
  · subst hpc
    simp only [stepHandler] at h
    exact Option.noConfusion h

theorem stepHandler_before_since {s u : ConcState} (h : stepHandler s = some u)
    (h1 : s.pc ≠ HandlerPc.start) (hel : s.pc ≠ HandlerPc.elapsed)
    (h2 : s.pc ≠ HandlerPc.respond) (h3 : s.pc ≠ HandlerPc.exited) :
    u.pc ≠ HandlerPc.start ∧ u.pc ≠ HandlerPc.respond ∧ u.pc ≠ HandlerPc.exited ∧
      u.startTime = s.startTime := by
  obtain ⟨ToSort, clock, startTime, wg, sortedArrays, units, waiter, pc, elapsedTime, w,
    panicked⟩ := s
  simp only at h1 hel h2 h3
  cases pc with
  | start => exact absurd rfl h1
  | loop k =>
    simp only [stepHandler] at h
    split at h <;> (simp only [Option.some.injEq] at h; subst h; simp)
  | spawn i arr =>
    simp only [stepHandler, Option.some.injEq] at h
    subst h
    simp
  | launchWaiter =>
    simp only [stepHandler, Option.some.injEq] at h
    subst h
    simp
  | recv =>
    simp only [stepHandler] at h
    split at h
    · simp only [Option.some.injEq] at h
      subst h
      simp
    · exact Option.noConfusion h
  | elapsed => exact absurd rfl hel
  | respond => exact absurd rfl h2
  | exited => exact absurd rfl h3

/-- Once `time.Since` has been executed, `elapsedTime` is not assigned again. -/
theorem run_after_since (sched : List Action) : ∀ {s t : ConcState},
    run s sched = some t → (s.pc = HandlerPc.respond ∨ s.pc = HandlerPc.exited) →
    t.elapsedTime = s.elapsedTime := by
  induction sched with
  | nil =>
    intro s t hr _
    simp only [run, Option.some.injEq] at hr
    subst hr
    rfl
  | cons a sched ih =>
    intro s t hr hpc
    simp only [run] at hr
    cases hs : step s a with
    | none => simp [hs] at hr
    | some u =>
      simp only [hs, Option.some_bind] at hr
      by_cases ha : a = Action.handler
      · subst ha
        unfold step at hs
        split at hs
        · exact Option.noConfusion hs
        · obtain ⟨e1, e2⟩ := stepHandler_after_since hs hpc
          rw [ih hr (Or.inr e1), e2]
      · obtain ⟨f1, _, f3⟩ := step_frame hs ha
        rw [ih hr (by rw [f1]; exact hpc), f3]

/-- From a state past `time.Now()` and not past `time.Since`, a schedule that makes
the handler return passes through the state where `time.Since` is executed; the
start time is still the one recorded, and the elapsed time of the final state is
computed there. -/
theorem run_to_since {ts : List (List Int)} {w0 : ResponseWriter} (sched : List Action) :
    ∀ {s t : ConcState}, Inv ts w0 s →
      s.pc ≠ HandlerPc.start → s.pc ≠ HandlerPc.respond → s.pc ≠ HandlerPc.exited →
      run s sched = some t → t.pc = HandlerPc.exited →
      ∃ s1 : ConcState, stateAt HandlerPc.atSince s sched = some s1 ∧
        s1.pc = HandlerPc.elapsed ∧ Inv ts w0 s1 ∧ s1.startTime = s.startTime ∧
        t.elapsedTime = Since s1.startTime s1.clock := by
  induction sched with
  | nil =>
    intro s t _ _ _ h3 hr ht
    simp only [run, Option.some.injEq] at hr
    subst hr
    exact absurd ht h3
  | cons a sched ih =>
    intro s t hinv h1 h2 h3 hr ht
    simp only [run] at hr
    cases hs : step s a with
    | none => simp [hs] at hr
    | some u =>
      simp only [hs, Option.some_bind] at hr
      have hinvu := inv_step hinv hs
      by_cases ha : a = Action.handler
      · subst ha
        have hs2 := hs
        unfold step at hs2
        rw [if_neg (by simp [hinv.noPanic])] at hs2
        simp only at hs2
        by_cases hel : s.pc = HandlerPc.elapsed
        · refine ⟨s, ?_, hel, hinv, rfl, ?_⟩
          · simp [stateAt, hs, hel, HandlerPc.atSince]
          · simp only [stepHandler, hel, Option.some.injEq] at hs2
            subst hs2
            exact run_after_since sched hr (Or.inl rfl)
        · have hu := stepHandler_before_since hs2 h1 hel h2 h3
          obtain ⟨s1, g1, g2, g3, g4, g5⟩ := ih hinvu hu.1 hu.2.1 hu.2.2.1 hr ht
          refine ⟨s1, ?_, g2, g3, by rw [g4, hu.2.2.2], g5⟩
          have hns : HandlerPc.atSince s.pc = false := by
            revert hel
            cases s.pc <;> simp [HandlerPc.atSince]
          simp [stateAt, hs, hns, g1]
      · obtain ⟨f1, f2, _⟩ := step_frame hs ha
        obtain ⟨s1, g1, g2, g3, g4, g5⟩ :=
          ih hinvu (by rw [f1]; exact h1) (by rw [f1]; exact h2) (by rw [f1]; exact h3) hr ht
        refine ⟨s1, ?_, g2, g3, by rw [g4, f2], g5⟩
        simp [stateAt, hs, ha, g1]

/-- From a state before `time.Now()`, a schedule that makes the handler return passes
through the state where `time.Now()` is executed and the state where `time.Since` is
executed; the elapsed time of the final state is `Since` of the two clock readings
found there. -/
theorem run_from_start {ts : List (List Int)} {w0 : ResponseWriter} (sched : List Action) :
    ∀ {s t : ConcState}, Inv ts w0 s → s.pc = HandlerPc.start →
      run s sched = some t → t.pc = HandlerPc.exited →
      ∃ s0 s1 : ConcState, stateAt HandlerPc.atNow s sched = some s0 ∧
        stateAt HandlerPc.atSince s sched = some s1 ∧
        s0.pc = HandlerPc.start ∧ s1.pc = HandlerPc.elapsed ∧ Inv ts w0 s1 ∧
        s1.startTime = s0.clock ∧ t.elapsedTime = Since s0.clock s1.clock := by
  induction sched with
  | nil =>
    intro s t _ h0 hr ht
    simp only [run, Option.some.injEq] at hr
    subst hr
    rw [h0] at ht
    exact HandlerPc.noConfusion ht
  | cons a sched ih =>
    intro s t hinv h0 hr ht
    simp only [run] at hr
    cases hs : step s a with
    | none => simp [hs] at hr
    | some u =>
      simp only [hs, Option.some_bind] at hr
      have hinvu := inv_step hinv hs
      have hns : HandlerPc.atSince s.pc = false := by rw [h0]; rfl
      by_cases ha : a = Action.handler
      · subst ha
        have hs2 := hs
        unfold step at hs2
        rw [if_neg (by simp [hinv.noPanic])] at hs2
        simp only [stepHandler, h0, Option.some.injEq] at hs2
        subst hs2
        obtain ⟨s1, g1, g2, g3, g4, g5⟩ :=
          run_to_since sched hinvu (by simp) (by simp) (by simp) hr ht
        simp only at g4
        refine ⟨s, s1, ?_, ?_, h0, g2, g3, g4, by rw [g5, g4]⟩
        · simp [stateAt, hs, h0, HandlerPc.atNow]
        · simp [stateAt, hs, hns, g1]
      · obtain ⟨f1, _, _⟩ := step_frame hs ha
        obtain ⟨s0, s1, g1, g2, g3, g4, g5, g6, g7⟩ := ih hinvu (by rw [f1]; exact h0) hr ht
        refine ⟨s0, s1, ?_, ?_, g3, g4, g5, g6, g7⟩
        · simp [stateAt, hs, ha, g1]
        · simp [stateAt, hs, ha, g2]

/-- Claim C6. `time_ns` is never negative. The monotonic clock is part of the state
and only advances. In `handleSequential`, where the clock reads `seqClock` at
`time.Now()` and has advanced by `elapsed` at `time.Since`, `time_ns` is the
difference of these two readings, capped at the largest `time.Duration`. In
`handleConcurrent`, every schedule that makes the handler return passes through the
state `s0` in which the handler executes `time.Now()` and the state `s1` in which it
executes `time.Since`; in `s1` all `len(to_sort)` sorting goroutines have returned,
the clock of `s0` is not after the clock of `s1`, and the `time_ns` written is the
difference of the two clocks, capped at the largest `time.Duration`. -/
theorem time_ns_nonneg (w : ResponseWriter) (req : SortRequest) (seqClock elapsed clock : Nat)
    (sched : List Action) (s : ConcState)
    (hrun : run (handleConcurrent w (.ok req) clock) sched = some s)
    (hexit : s.pc = HandlerPc.exited) :
    (handleSequential w (.ok req) seqClock elapsed
        = Encode w { SortedArrays := req.ToSort,
                     TimeNs := min (((seqClock + elapsed : Nat) : Int) - (seqClock : Int))
                                 maxDuration } ∧
      0 ≤ min (((seqClock + elapsed : Nat) : Int) - (seqClock : Int)) maxDuration) ∧
    ∃ s0 s1 : ConcState,
      stateAt HandlerPc.atNow (handleConcurrent w (.ok req) clock) sched = some s0 ∧
      stateAt HandlerPc.atSince (handleConcurrent w (.ok req) clock) sched = some s1 ∧
      s0.pc = HandlerPc.start ∧ s1.pc = HandlerPc.elapsed ∧
      s1.units.length = req.ToSort.length ∧ pending s1.units = 0 ∧
      s0.clock ≤ s1.clock ∧
      s.w = Encode w { SortedArrays := req.ToSort,
                       TimeNs := min ((s1.clock : Int) - (s0.clock : Int)) maxDuration } ∧
      0 ≤ min ((s1.clock : Int) - (s0.clock : Int)) maxDuration := by
  have hle : seqClock ≤ seqClock + elapsed := Nat.le_add_right _ _
  refine ⟨⟨?_, ?_⟩, ?_⟩
  · rw [handleSequential_ok, Since_of_le hle]
  · rw [← Since_of_le hle]
    exact Since_nonneg hle
  · obtain ⟨s0, s1, g1, g2, g3, g4, g5, g6, g7⟩ :=
      run_from_start sched (inv_init w req clock) rfl hrun hexit
    have h6 := g5.pc_ok
    rw [g4] at h6
    have hmono : s0.clock ≤ s1.clock := by
      have := g5.time_ok (by rw [g4]; simp)
      omega
    refine ⟨s0, s1, g1, g2, g3, g4, h6.1, h6.2.2, hmono, ?_, ?_⟩
    · rw [exit_writer (reach_inv hrun) hexit, g7, Since_of_le hmono]
    · rw [← Since_of_le hmono]
      exact Since_nonneg hmono

theorem time_ns_nonneg_witness :
    run (handleConcurrent .fresh (.ok exampleRequest) 7) exampleSchedule = some exampleFinal ∧
    exampleFinal.pc = HandlerPc.exited ∧
    stateAt HandlerPc.atNow (handleConcurrent .fresh (.ok exampleRequest) 7) exampleSchedule
      = some (handleConcurrent .fresh (.ok exampleRequest) 7) ∧
    stateAt HandlerPc.atSince (handleConcurrent .fresh (.ok exampleRequest) 7) exampleSchedule
      = some exampleElapsed ∧
    ((handleSequential .fresh (.ok exampleRequest) 7 5
        = Encode .fresh { SortedArrays := exampleRequest.ToSort,
                          TimeNs := min (((7 + 5 : Nat) : Int) - ((7 : Nat) : Int))
                                      maxDuration } ∧
      0 ≤ min (((7 + 5 : Nat) : Int) - ((7 : Nat) : Int)) maxDuration) ∧
    ∃ s0 s1 : ConcState,
      stateAt HandlerPc.atNow (handleConcurrent .fresh (.ok exampleRequest) 7) exampleSchedule
        = some s0 ∧
      stateAt HandlerPc.atSince (handleConcurrent .fresh (.ok exampleRequest) 7) exampleSchedule
        = some s1 ∧
      s0.pc = HandlerPc.start ∧ s1.pc = HandlerPc.elapsed ∧
      s1.units.length = exampleRequest.ToSort.length ∧ pending s1.units = 0 ∧
      s0.clock ≤ s1.clock ∧
      exampleFinal.w
        = Encode .fresh { SortedArrays := exampleRequest.ToSort,
                          TimeNs := min ((s1.clock : Int) - (s0.clock : Int)) maxDuration } ∧
      0 ≤ min ((s1.clock : Int) - (s0.clock : Int)) maxDuration) :=
  ⟨by decide, by decide, by decide, by decide,
    time_ns_nonneg .fresh exampleRequest 7 5 7 exampleSchedule exampleFinal
      (by decide) (by decide)⟩

/-- Claim C7. `handleConcurrent` never deadlocks, for any number of arrays (zero
included): in every reachable state no panic has occurred, and either the handler
has returned or some thread (handler, sorting goroutine, or waiter) can execute its
next statement; the statements still to execute and those executed add up to
`4 * len(to_sort) + 7`, so every schedule runs out; and the state can always be run
on to one where the waiter has completed its send, the handler has returned, and
the JSON response is written. -/
theorem handleConcurrent_never_deadlocks (w : ResponseWriter) (req : SortRequest)
    (clock : Nat) (sched : List Action) (s : ConcState)
    (hrun : run (handleConcurrent w (.ok req) clock) sched = some s) :
    s.panicked = false ∧
    fuel s + threadSteps sched = 4 * req.ToSort.length + 7 ∧
    (s.pc = HandlerPc.exited ∨
      ∃ a : Action, a.isThread = true ∧ (step s a).isSome = true) ∧
    ∃ (sched2 : List Action) (t : ConcState),
      run s sched2 = some t ∧ t.pc = HandlerPc.exited ∧ t.waiter = WaiterPc.exited ∧
        t.w = Encode w { SortedArrays := req.ToSort, TimeNs := t.elapsedTime } := by
  have hinv := reach_inv hrun
  refine ⟨hinv.noPanic, ?_, ?_, ?_⟩
  · have := fuel_run sched (inv_init w req clock) hrun
    rw [this]
    simp [fuel, handleConcurrent, handlerFuel, waiterFuel]
  · by_cases hpc : s.pc = HandlerPc.exited
    · exact Or.inl hpc
    · exact Or.inr (progress hinv hpc)
  · obtain ⟨sched2, t, hr, ht⟩ := exists_run_to_exit _ s (Nat.le_refl _) hinv
    have hinvt := inv_run sched2 hinv hr
    have h6 := hinvt.pc_ok
    rw [ht] at h6
    exact ⟨sched2, t, hr, ht, h6.2.1, exit_writer hinvt ht⟩

theorem handleConcurrent_never_deadlocks_witness :
    run (handleConcurrent .fresh (.ok exampleRequest) 7) exampleMidSchedule = some exampleMid ∧
    (exampleMid.panicked = false ∧
      fuel exampleMid + threadSteps exampleMidSchedule = 4 * exampleRequest.ToSort.length + 7) :=
  ⟨by decide,
    (handleConcurrent_never_deadlocks .fresh exampleRequest 7 exampleMidSchedule exampleMid
      (by decide)).1,
    (handleConcurrent_never_deadlocks .fresh exampleRequest 7 exampleMidSchedule exampleMid
      (by decide)).2.1⟩


/-- Claim C8. When the `j`-th launched sorting goroutine executes a statement, it is
the goroutine launched for index `j`; the indices of the launched goroutines are
`0, 1, ...` in launch order, hence pairwise distinct; the shared output has length
`len(to_sort)` before and after the statement; the statement either is the write of
`sort.IntSlice(arr)` to slot `j` or leaves the output as it is; and every slot other
than `j` is unchanged. -/
theorem unit_writes_only_its_slot (w : ResponseWriter) (req : SortRequest) (clock : Nat)
    (sched : List Action) (s t : ConcState) (j : Nat)
    (hrun : run (handleConcurrent w (.ok req) clock) sched = some s)
    (hstep : step s (.unit j) = some t) :
    ∃ g : Goroutine, s.units[j]? = some g ∧ g.i = j ∧
      s.units.map Goroutine.i = List.range s.units.length ∧
      (s.units.map Goroutine.i).Nodup ∧
      s.sortedArrays.length = req.ToSort.length ∧
      t.sortedArrays.length = req.ToSort.length ∧
      t.sortedArrays
        = (if g.pc = UnitPc.write then s.sortedArrays.set j (IntSlice g.arr)
           else s.sortedArrays) ∧
      ∀ k : Nat, k ≠ j → t.sortedArrays[k]? = s.sortedArrays[k]? := by
  have hinv := reach_inv hrun
  have hinvt := inv_step hinv hstep
  have hnp := hinvt.noPanic
  have hidx := units_index hinv
  unfold step at hstep
  rw [if_neg (by simp [hinv.noPanic])] at hstep
  simp only [stepUnit] at hstep
  cases hj : s.units[j]? with
  | none => simp [hj] at hstep
  | some g =>
    simp only [hj] at hstep
    have hgi := (hinv.units_ok j g hj).1
    have hne := pc_ne_start_of_unit hinv hj
    have hlen := hinv.len_ok hne
    have hset : t.sortedArrays
        = (if g.pc = UnitPc.write then s.sortedArrays.set j (IntSlice g.arr)
           else s.sortedArrays) := by
      cases hpc : g.pc with
      | write =>
        simp only [hpc] at hstep
        by_cases hin : g.i < s.sortedArrays.length
        · simp only [hin, if_true, Option.some.injEq] at hstep
          subst hstep
          simp [hgi]
        · simp only [hin, if_false, Option.some.injEq] at hstep
          subst hstep
          simp at hnp
      | done =>
        simp only [hpc] at hstep
        by_cases hin : s.wg - 1 < 0
        · simp only [hin, if_true, Option.some.injEq] at hstep
          subst hstep
          simp at hnp
        · simp only [hin, if_false, Option.some.injEq] at hstep
          subst hstep
          simp
      | exited => simp [hpc] at hstep
    refine ⟨g, rfl, hgi, hidx, ?_, hlen, ?_, hset, ?_⟩
    · rw [hidx]
      exact List.nodup_range _
    · rw [hset]
      split
      · simpa using hlen
      · exact hlen
    · intro k hk
      rw [hset]
      split
      · exact List.getElem?_set_ne (Ne.symm hk)
      · rfl

theorem unit_writes_only_its_slot_witness :
    run (handleConcurrent .fresh (.ok exampleRequest) 7) exampleMidSchedule = some exampleMid ∧
    step exampleMid (.unit 0) = some exampleMidNext ∧
    ∃ g : Goroutine, exampleMid.units[0]? = some g ∧ g.i = 0 ∧
      exampleMid.units.map Goroutine.i = List.range exampleMid.units.length ∧
      (exampleMid.units.map Goroutine.i).Nodup ∧
      exampleMid.sortedArrays.length = exampleRequest.ToSort.length ∧
      exampleMidNext.sortedArrays.length = exampleRequest.ToSort.length ∧
      exampleMidNext.sortedArrays
        = (if g.pc = UnitPc.write then exampleMid.sortedArrays.set 0 (IntSlice g.arr)
           else exampleMid.sortedArrays) ∧
      ∀ k : Nat, k ≠ 0 → exampleMidNext.sortedArrays[k]? = exampleMid.sortedArrays[k]? :=
  ⟨by decide, by decide,
    unit_writes_only_its_slot .fresh exampleRequest 7 exampleMidSchedule exampleMid
      exampleMidNext 0 (by decide) (by decide)⟩

/-- Claim C9. In every reachable state of `handleConcurrent` in which the handler has
completed its receive from the channel (it stands at the elapsed-time calculation, at
the response, or has returned), all `len(to_sort)` sorting goroutines have been
launched and have returned, the WaitGroup counter is zero, the waiter has returned,
and every slot of the output holds what its goroutine wrote. -/
theorem received_implies_all_units_done (w : ResponseWriter) (req : SortRequest)
    (clock : Nat) (sched : List Action) (s : ConcState)
    (hrun : run (handleConcurrent w (.ok req) clock) sched = some s)
    (hrecv : s.pc.received = true) :
    s.units.length = req.ToSort.length ∧
    s.units.all (fun g => decide (g.pc = UnitPc.exited)) = true ∧
    s.wg = 0 ∧
    s.waiter = WaiterPc.exited ∧
    s.sortedArrays = s.units.map (fun g => IntSlice g.arr) := by
  have hinv := reach_inv hrun
  have h6 := hinv.pc_ok
  have h5 := hinv.wg_ok
  have hfacts : s.pc ≠ HandlerPc.start ∧ spawning s.pc = 0 ∧
      s.units.length = req.ToSort.length ∧ s.waiter = WaiterPc.exited ∧
      pending s.units = 0 := by
    revert hrecv h6
    cases s.pc <;> simp [HandlerPc.received, PcOk, spawning]
  obtain ⟨hne, hsp, hlen, hw, hp⟩ := hfacts
  refine ⟨hlen, ?_, ?_, hw, ?_⟩
  · rw [List.all_eq_true]
    intro g hg
    obtain ⟨j, hj⟩ := List.mem_iff_getElem?.mp hg
    simpa using pending_zero_exited s.units hp j g hj
  · rw [h5, hp, hsp]
    rfl
  · rw [sortedArrays_eq_of_done hinv hne hlen hp]
    apply List.ext_getElem?
    intro j
    by_cases hj : j < s.units.length
    · have hu : s.units[j]? = some (s.units[j]) := List.getElem?_eq_getElem hj
      have := (hinv.units_ok j _ hu).2.1
      simp [this, hu, IntSlice]
    · rw [List.getElem?_eq_none (by omega), List.getElem?_eq_none (by simp; omega)]

theorem received_implies_all_units_done_witness :
    run (handleConcurrent .fresh (.ok exampleRequest) 7) (exampleSchedule.take 15)
      = some { exampleFinal with pc := .respond, w := ResponseWriter.fresh } ∧
    ({ exampleFinal with pc := .respond, w := ResponseWriter.fresh } : ConcState).pc.received
      = true ∧
    (exampleFinal.units.length = exampleRequest.ToSort.length ∧
      exampleFinal.units.all (fun g => decide (g.pc = UnitPc.exited)) = true ∧
      exampleFinal.wg = 0 ∧
      exampleFinal.waiter = WaiterPc.exited ∧
      exampleFinal.sortedArrays = exampleFinal.units.map (fun g => IntSlice g.arr)) :=
  ⟨by decide, by decide,
    received_implies_all_units_done .fresh exampleRequest 7 (exampleSchedule.take 15)
      { exampleFinal with pc := .respond, w := ResponseWriter.fresh } (by decide) (by decide)⟩

/-- Claim C10. On a decoded request both handlers return `sorted_arrays` equal to
`to_sort`, element for element and in the same order: `sort.IntSlice(arr)` is a
conversion that leaves `arr` as it is. `handleConcurrent` does so under every
schedule under which it returns, and some schedule makes it return. -/
theorem handlers_return_input_unchanged (w : ResponseWriter) (req : SortRequest)
    (seqClock elapsed clock : Nat) (sched : List Action) (s : ConcState)
    (hrun : run (handleConcurrent w (.ok req) clock) sched = some s)
    (hexit : s.pc = HandlerPc.exited) :
    handleSequential w (.ok req) seqClock elapsed
        = Encode w { SortedArrays := req.ToSort,
                     TimeNs := Since seqClock (seqClock + elapsed) } ∧
      s.w = Encode w { SortedArrays := req.ToSort, TimeNs := s.elapsedTime } ∧
      s.sortedArrays = req.ToSort ∧
      req.ToSort.map IntSlice = req.ToSort ∧
      ∃ (sched2 : List Action) (s2 : ConcState),
        run (handleConcurrent w (.ok req) clock) sched2 = some s2 ∧
          s2.pc = HandlerPc.exited := by
  have hinv := reach_inv hrun
  have h6 := hinv.pc_ok
  rw [hexit] at h6
  refine ⟨handleSequential_ok w req seqClock elapsed, exit_writer hinv hexit, ?_, ?_,
    exists_exit w req clock⟩
  · exact sortedArrays_eq_of_done hinv (by rw [hexit]; simp) h6.1 h6.2.2
  · have hfun : IntSlice = id := funext (fun _ => rfl)
    rw [hfun, List.map_id]

theorem handlers_return_input_unchanged_witness :
    run (handleConcurrent .fresh (.ok exampleRequest) 7) exampleSchedule = some exampleFinal ∧
    exampleFinal.pc = HandlerPc.exited ∧
    handleSequential .fresh (.ok exampleRequest) 7 5
        = Encode .fresh { SortedArrays := exampleRequest.ToSort, TimeNs := Since 7 (7 + 5) } ∧
    exampleFinal.w
        = Encode .fresh { SortedArrays := exampleRequest.ToSort,
                          TimeNs := exampleFinal.elapsedTime } :=
  ⟨by decide, by decide,
    (handlers_return_input_unchanged .fresh exampleRequest 7 5 7 exampleSchedule exampleFinal
      (by decide) (by decide)).1,
    (handlers_return_input_unchanged .fresh exampleRequest 7 5 7 exampleSchedule exampleFinal
      (by decide) (by decide)).2.1⟩

end GoServer
